import Mathlib

/-!
Shallow embedding of the DVR taint-scoreboard engine
(`taint_scoreboard.cc` / `taint_scoreboard.hh`): a per-instruction
taint-propagation state machine over physical registers, a single active
tracking session, a store of completed dependency chains, per-base-PC
compute-step ledgers, and the replay (`recomputeStepsForPC`) operation.

Machine integers are modelled as `Nat` with explicit `% 2^64` where the
C++ code performs 64-bit wraparound arithmetic; the 32-bit instruction
word is a `Nat` masked to its fields.  `std::set<Addr>` is modelled as a
strictly-ascending duplicate-free list (its iteration order), and the
two `std::map<Addr, std::vector<ComputeStep>>` step stores as total
functions defaulting to the empty list (`operator[]` default-insertion
is unobservable because the maps are never iterated).
-/

namespace DVR

/-- Instruction addresses (`Addr` in gem5). -/
abbrev Addr := Nat

/-! ### List/map helpers mirroring the C++ container operations -/

/-- Insertion into a `std::set<Addr>` modelled as a strictly ascending,
duplicate-free list. -/
def setInsert (x : Addr) : List Addr → List Addr
  | [] => [x]
  | y :: ys =>
    if x < y then x :: y :: ys
    else if x = y then y :: ys
    else y :: setInsert x ys

/-- Single step of insertion sort, used to model `std::sort` on a vector
of addresses. -/
def insertSorted (x : Addr) : List Addr → List Addr
  | [] => [x]
  | y :: ys => if x ≤ y then x :: y :: ys else y :: insertSorted x ys

/-- Model of `std::sort` on a vector of addresses (ascending). -/
def sortAddrs (l : List Addr) : List Addr :=
  l.foldr insertSorted []

/-- Insert-or-overwrite on `std::map<int, uint64_t>` modelled as an
association list with at most one entry per key. -/
def mapInsert (k v : Nat) : List (Nat × Nat) → List (Nat × Nat)
  | [] => [(k, v)]
  | (k', v') :: rest =>
    if k = k' then (k, v) :: rest else (k', v') :: mapInsert k v rest

/-- Point update of a total-function model of a `std::map` keyed by
address. -/
def updMap {α : Type} (f : Addr → α) (k : Addr) (v : α) : Addr → α :=
  fun x => if x = k then v else f x

/-! ### Data model (`taint_scoreboard.hh`) -/

/-- One recorded compute step (`TaintScoreboard::ComputeStep`). -/
structure ComputeStep where
  pc : Addr
  operation : String
  operand1 : Nat
  operand2 : Nat
  result : Nat
  description : String
deriving DecidableEq, Repr

/-- A persisted dependency chain (`TaintScoreboard::DependencyChain`). -/
structure DependencyChain where
  basePC : Addr
  indirectPC : Addr
  chainPCs : List Addr
deriving DecidableEq, Repr

/-- The single active tracking session
(`TaintScoreboard::TaintSession`); `dependencyChain` models the
`std::set<Addr>` in ascending iteration order. -/
structure TaintSession where
  stridePC : Addr
  dependencyChain : List Addr
deriving DecidableEq, Repr

/-- Host-core capabilities consumed through the `cpu` back-pointer:
the stride-PC qualification test and the LSQ's vectorized load values. -/
structure Host where
  isStridePC : Addr → Bool
  vectorLoadValues : List Nat

/-- A dynamic instruction as seen by the scoreboard: renamed source and
destination physical-register indices (absent references are `none`),
its address, load predicate, raw 32-bit encoding, and the live value of
operand index 1 returned by the host's `getRegOperand` facility. -/
structure Inst where
  pc : Addr
  srcRegs : List (Option Nat)
  destRegs : List (Option Nat)
  isLoad : Bool
  rawInst : Nat
  regOperand1 : Nat
deriving DecidableEq, Repr

/-- Model list insertion at a vector iterator position
(`std::vector::insert`). -/
def listInsertAt (l : List ComputeStep) (i : Nat) (x : ComputeStep) :
    List ComputeStep :=
  l.take i ++ x :: l.drop i

/-- Full mutable state of a `TaintScoreboard` instance, with the host
capabilities attached (the `cpu` pointer set by `setCPU`). -/
structure TaintScoreboard where
  host : Host
  taintedRegs : List Bool
  activeSession : TaintSession
  hasActiveSession : Bool
  dependencyChains : List DependencyChain
  completedStridePCs : List Addr
  numTaintedRegs : Nat
  numTaintPropagations : Nat
  numTaintDetections : Nat
  taintedValues : List (Nat × Nat)
  computeStepsByPC : Addr → List ComputeStep
  currentSessionComputeSteps : Addr → List ComputeStep

/-- Constructor `TaintScoreboard(numPhysRegs)`: all registers clean; a
zero register count falls back to a capacity of 256. -/
def initState (h : Host) (numPhysRegs : Nat) : TaintScoreboard where
  host := h
  taintedRegs :=
    if numPhysRegs = 0 then List.replicate 256 false
    else List.replicate numPhysRegs false
  activeSession := ⟨0, []⟩
  hasActiveSession := false
  dependencyChains := []
  completedStridePCs := []
  numTaintedRegs := 0
  numTaintPropagations := 0
  numTaintDetections := 0
  taintedValues := []
  computeStepsByPC := fun _ => []
  currentSessionComputeSteps := fun _ => []

/-! ### Core operations (`taint_scoreboard.cc`) -/

/-- Operation `TaintScoreboard::taintReg(destReg, pc)`: seed taint from a
qualifying stride PC.  Rejected (state unchanged) on an absent or
out-of-bounds register or a non-stride PC; otherwise marks the register
tainted, records its shadow value (latest vectorized load value, default
2690), and opens a fresh session `{stridePC = pc, chain = {pc}}`. -/
def taintReg (s : TaintScoreboard) (destReg : Option Nat) (pc : Addr) :
    TaintScoreboard :=
  match destReg with
  | none => s
  | some idx =>
    if s.taintedRegs.length ≤ idx then s
    else if !s.host.isStridePC pc then s
    else
      let initValue :=
        match s.host.vectorLoadValues.getLast? with
        | some v => v
        | none => 2690
      { s with
        taintedRegs := s.taintedRegs.set idx true
        taintedValues := mapInsert idx initValue s.taintedValues
        numTaintedRegs := s.numTaintedRegs + 1
        activeSession := ⟨pc, [pc]⟩
        hasActiveSession := true }

/-- Operation `TaintScoreboard::isRegTainted(reg)`: bounds-checked read
of the taint table; absent or out-of-range references read `false`. -/
def isRegTainted (s : TaintScoreboard) (reg : Option Nat) : Bool :=
  match reg with
  | some idx =>
    if idx < s.taintedRegs.length then s.taintedRegs.getD idx false
    else false
  | none => false

/-- Operation `TaintScoreboard::clearAllTaints()`: clears every taint
bit, closes the session, resets the tainted-register counter and the
current session's compute steps.  The shadow-value map `taintedValues`
is not touched. -/
def clearAllTaints (s : TaintScoreboard) : TaintScoreboard :=
  { s with
    taintedRegs := List.replicate s.taintedRegs.length false
    hasActiveSession := false
    numTaintedRegs := 0
    currentSessionComputeSteps := fun _ => [] }

/-- Source-register scan in `propagateTaint`: the first source reference
that is present, in bounds and tainted (loop over `numSrcRegs`). -/
def findTaintedSrc (s : TaintScoreboard) : List (Option Nat) → Option Nat
  | [] => none
  | r :: rest =>
    match r with
    | some idx =>
      if idx < s.taintedRegs.length && s.taintedRegs.getD idx false then
        some idx
      else findTaintedSrc s rest
    | none => findTaintedSrc s rest

/-- The source scan as the C++ actually executes it: the diagnostic
print at the top of the loop body reads the reference's class name and
index BEFORE the null check, so an absent reference reached by the
scan is a null dereference (undefined behavior), modelled as `none`;
otherwise the scan is defined and returns what `findTaintedSrc`
returns: the first in-bounds tainted source, if any.  (`findTaintedSrc`
is the scan restricted to the defined inputs, on which the two agree.)
-/
def findTaintedSrcChecked (s : TaintScoreboard) :
    List (Option Nat) → Option (Option Nat)
  | [] => some none
  | r :: rest =>
    match r with
    | some idx =>
      if idx < s.taintedRegs.length && s.taintedRegs.getD idx false then
        some (some idx)
      else findTaintedSrcChecked s rest
    | none => none

/-- Session-chain update inside the source scan of `propagateTaint`:
when a tainted source is found, the current PC joins the session's
dependency-chain set. -/
def propSession (s : TaintScoreboard) (currentPC : Addr)
    (hasTaintedSrc : Bool) : TaintScoreboard :=
  if hasTaintedSrc then
    { s with
      activeSession :=
        ⟨s.activeSession.stridePC,
         setInsert currentPC s.activeSession.dependencyChain⟩ }
  else s

/-- Taint-transfer rule of `propagateTaint`: with a tainted source, a
present in-bounds first destination becomes tainted; without one, a
currently tainted destination is cleared. -/
def propTransfer (s : TaintScoreboard) (hasTaintedSrc : Bool)
    (destRegs : List (Option Nat)) : TaintScoreboard :=
  match destRegs with
  | some d :: _ =>
    if hasTaintedSrc then
      if d < s.taintedRegs.length then
        { s with
          taintedRegs := s.taintedRegs.set d true
          numTaintPropagations := s.numTaintPropagations + 1 }
      else s
    else
      if d < s.taintedRegs.length && s.taintedRegs.getD d false then
        { s with taintedRegs := s.taintedRegs.set d false }
      else s
  | _ => s

/-- Chain-closing rule of `propagateTaint`: a load with a tainted source
persists the chain (base PC, this PC, the session's address set in
ascending order), clears all taint state, erases the session's steps for
the base PC, and marks the base PC completed. -/
def propClose (s : TaintScoreboard) (currentPC : Addr)
    (hasTaintedSrc isLoad : Bool) : TaintScoreboard :=
  if isLoad && hasTaintedSrc then
    let stridePC := s.activeSession.stridePC
    let chain : DependencyChain :=
      ⟨stridePC, currentPC, s.activeSession.dependencyChain⟩
    let s3 :=
      { s with
        numTaintDetections := s.numTaintDetections + 1
        dependencyChains := s.dependencyChains ++ [chain] }
    let s4 := clearAllTaints s3
    let s5 :=
      { s4 with
        currentSessionComputeSteps :=
          updMap s4.currentSessionComputeSteps stridePC [] }
    { s5 with completedStridePCs := stridePC :: s5.completedStridePCs }
  else s

/-- Operation `TaintScoreboard::propagateTaint(inst)`: no-op without an
active session; a session whose base PC is already completed is closed;
otherwise the source scan, the session-chain update, the taint-transfer
rule and the chain-closing rule run in that order. -/
def propagateTaint (s : TaintScoreboard) (inst : Inst) : TaintScoreboard :=
  if !s.hasActiveSession then s
  else if s.completedStridePCs.contains s.activeSession.stridePC then
    { s with hasActiveSession := false }
  else
    let hasTaintedSrc := (findTaintedSrc s inst.srcRegs).isSome
    propClose
      (propTransfer (propSession s inst.pc hasTaintedSrc) hasTaintedSrc
        inst.destRegs)
      inst.pc hasTaintedSrc inst.isLoad

/-! ### Replay engine (`recomputeStepsForPC`) -/

/-- One replay step: left shift for `slli`, addition for `add` and `lw`
(the load immediate is folded as an additive offset), all in 64-bit
wraparound arithmetic; unrecognized operations leave the value alone. -/
def recomputeStep (v : Nat) (st : ComputeStep) : Nat :=
  if st.operation = "slli" then (v <<< st.operand2) % 2 ^ 64
  else if st.operation = "add" then (v + st.operand2) % 2 ^ 64
  else if st.operation = "lw" then (v + st.operand2) % 2 ^ 64
  else v

/-- Replay of a ledger: fold the steps over the running value, updating
each step's stored input (`operand1`) and output (`result`) with the
values of this replay, exactly as the C++ loop mutates the vector. -/
def recomputeSteps (v : Nat) : List ComputeStep → Nat × List ComputeStep
  | [] => (v, [])
  | st :: rest =>
    let v' := recomputeStep v st
    let st' := { st with operand1 := v, result := v' }
    ((recomputeSteps v' rest).1, st' :: (recomputeSteps v' rest).2)

/-- Operation `TaintScoreboard::recomputeStepsForPC(pc, initValue)`:
replays the final ledger for `pc` from a fresh seed, returning the final
value and the state with the ledger's per-step input/output fields
overwritten by this replay. -/
def recomputeStepsForPC (s : TaintScoreboard) (pc : Addr)
    (initValue : Nat) : Nat × TaintScoreboard :=
  let (v, steps') := recomputeSteps initValue (s.computeStepsByPC pc)
  (v, { s with computeStepsByPC := updMap s.computeStepsByPC pc steps' })

/-! ### Positional recording (`decodeChainInstructionOperands`) -/

/-- Sign-extended 12-bit immediate: `((int32_t)machineInst) >> 20` as a
mathematical integer (arithmetic shift = floor division). -/
def signedImm12 (machineInst : Nat) : Int :=
  let m : Nat := machineInst % 2 ^ 32
  let signed : Int := if m < 2 ^ 31 then (m : Int) else (m : Int) - 2 ^ 32
  Int.ediv signed (2 ^ 20)

/-- Conversion of a signed immediate to `uint64_t` (two's complement). -/
def toUInt64N (i : Int) : Nat :=
  (i % (2 ^ 64 : Int)).toNat

/-- Search of the completed-chain store for the first chain containing a
given PC. -/
def findChainFor (pc : Addr) : List DependencyChain → Option DependencyChain
  | [] => none
  | c :: rest => if c.chainPCs.contains pc then some c else findChainFor pc rest

/-- The `std::vector::insert` position computed by the ordered-insertion
loop of `decodeChainInstructionOperands`: the index of the first saved
step whose chain position is greater than the new PC's, else the end. -/
def findInsertPos (chainOrder : List Addr) (pc : Addr) :
    List ComputeStep → Nat
  | [] => 0
  | e :: rest =>
    if chainOrder.contains e.pc && chainOrder.contains pc
        && chainOrder.indexOf pc < chainOrder.indexOf e.pc then 0
    else 1 + findInsertPos chainOrder pc rest

/-- Classification of an instruction word by the narrow opcode table of
`decodeChainInstructionOperands`: `0x0a` constant shift-by-2, `0x32`
register add with the live second operand, `0x03` load with the
sign-extended immediate as offset, anything else unrecognized. -/
def classifyChainInst (inst : Inst) : Option (String × Nat × String) :=
  let machineInst := inst.rawInst
  let opcode := machineInst % 2 ^ 32 &&& 0x7f
  let imm := signedImm12 machineInst
  if opcode = 0x0a then
    some ("slli", 2, "Left shift by " ++ toString 2)
  else if opcode = 0x32 then
    some ("add", inst.regOperand1, "Add base and offset")
  else if opcode = 0x03 then
    some ("lw", toUInt64N imm,
          "Load from memory: base + " ++ toString (toUInt64N imm))
  else none

/-- Storage phase of `decodeChainInstructionOperands`: place the step at
the instruction's chain position in the session ledger (growing it with
blank steps as needed) and insert it in chain order into the final
per-base-PC ledger unless a step with this PC is already recorded
there. -/
def recordStep (s : TaintScoreboard) (stridePC : Addr)
    (chainOrder : List Addr) (pc : Addr) (operation : String)
    (operand2 : Nat) (description : String) : TaintScoreboard :=
  if stridePC ≠ 0 ∧ operation ≠ "" then
    if chainOrder.contains pc then
      let position := chainOrder.indexOf pc
      let steps0 := s.currentSessionComputeSteps stridePC
      let steps1 :=
        if steps0.length ≤ position then
          steps0 ++ List.replicate (position + 1 - steps0.length)
            (ComputeStep.mk 0 "" 0 0 0 "")
        else steps0
      let step := ComputeStep.mk pc operation 0 operand2 0 description
      let steps2 := steps1.set position step
      let saved := s.computeStepsByPC stridePC
      let alreadyExists := saved.any (fun e => e.pc == pc)
      let saved' :=
        if alreadyExists then saved
        else listInsertAt saved (findInsertPos chainOrder pc saved) step
      { s with
        currentSessionComputeSteps :=
          updMap s.currentSessionComputeSteps stridePC steps2
        computeStepsByPC := updMap s.computeStepsByPC stridePC saved' }
    else s
  else s

/-- Operation `TaintScoreboard::decodeChainInstructionOperands(pc, inst)`:
locate the chain containing `pc` (active session first, sorted by
address; else the first completed chain), stop once the session ledger
already covers the whole chain, classify the instruction by opcode, and
record the resulting compute step positionally. -/
def decodeChainInstructionOperands (s : TaintScoreboard) (pc : Addr)
    (inst : Inst) : TaintScoreboard :=
  let info : Option (Addr × List Addr) :=
    if s.hasActiveSession && s.activeSession.dependencyChain.contains pc then
      some (s.activeSession.stridePC,
            sortAddrs s.activeSession.dependencyChain)
    else
      match findChainFor pc s.dependencyChains with
      | some c => some (c.basePC, c.chainPCs)
      | none => none
  match info with
  | none => s
  | some (stridePC, chainOrder) =>
    if chainOrder.length ≠ 0 ∧
        chainOrder.length ≤ (s.currentSessionComputeSteps stridePC).length then
      s
    else
      match classifyChainInst inst with
      | none => s
      | some (operation, operand2, description) =>
        recordStep s stridePC chainOrder pc operation operand2 description

/-! ### Call sequences -/

/-- One externally invokable operation of the engine. -/
inductive Op where
  | seed (destReg : Option Nat) (pc : Addr)
  | prop (inst : Inst)
  | clearTaints
  | decode (pc : Addr) (inst : Inst)
  | recompute (pc : Addr) (seed : Nat)

/-- Dispatch of one operation on the scoreboard state. -/
def stepOp (s : TaintScoreboard) : Op → TaintScoreboard
  | .seed d pc => taintReg s d pc
  | .prop inst => propagateTaint s inst
  | .clearTaints => clearAllTaints s
  | .decode pc inst => decodeChainInstructionOperands s pc inst
  | .recompute pc v => (recomputeStepsForPC s pc v).2

/-- Execution of a call sequence from a given state. -/
def run (s : TaintScoreboard) (ops : List Op) : TaintScoreboard :=
  ops.foldl stepOp s

/-! ### Lemmas about the container models -/

/-- Membership after a `std::set` insertion. -/
theorem mem_setInsert (x y : Addr) (l : List Addr) :
    y ∈ setInsert x l ↔ y = x ∨ y ∈ l := by
  induction l with
  | nil => simp [setInsert]
  | cons z zs ih =>
    simp only [setInsert]
    by_cases h1 : x < z
    · rw [if_pos h1]
      simp [List.mem_cons]
    · by_cases h2 : x = z
      · rw [if_neg h1, if_pos h2]
        subst h2
        simp only [List.mem_cons]
        tauto
      · rw [if_neg h1, if_neg h2]
        simp only [List.mem_cons, ih]
        tauto

/-- Insertion into a `std::set` keeps its iteration order strictly
ascending. -/
theorem setInsert_sorted {x : Addr} {l : List Addr}
    (h : List.Sorted (· < ·) l) : List.Sorted (· < ·) (setInsert x l) := by
  induction l with
  | nil => simp [setInsert]
  | cons z zs ih =>
    rw [List.sorted_cons] at h
    obtain ⟨hz, hzs⟩ := h
    simp only [setInsert]
    by_cases h1 : x < z
    · rw [if_pos h1, List.sorted_cons]
      refine ⟨?_, ?_⟩
      · intro b hb
        rcases List.mem_cons.mp hb with rfl | hb'
        · exact h1
        · exact lt_trans h1 (hz b hb')
      · rw [List.sorted_cons]
        exact ⟨hz, hzs⟩
    · by_cases h2 : x = z
      · rw [if_neg h1, if_pos h2, List.sorted_cons]
        exact ⟨hz, hzs⟩
      · rw [if_neg h1, if_neg h2, List.sorted_cons]
        refine ⟨?_, ih hzs⟩
        intro b hb
        rcases (mem_setInsert x b zs).mp hb with rfl | hb'
        · exact lt_of_le_of_ne (not_lt.mp h1) fun hzx => h2 hzx.symm
        · exact hz b hb'

/-- Inserting a lower bound into a list keeps it in front. -/
theorem insertSorted_of_le {x : Addr} {l : List Addr}
    (h : ∀ y ∈ l, x ≤ y) : insertSorted x l = x :: l := by
  cases l with
  | nil => rfl
  | cons z zs =>
    simp only [insertSorted, if_pos (h z (List.mem_cons_self z zs))]

/-- Sorting a strictly ascending list is the identity: the `std::sort`
in `decodeChainInstructionOperands` leaves the session set order
unchanged. -/
theorem sortAddrs_of_sorted {l : List Addr}
    (h : List.Sorted (· < ·) l) : sortAddrs l = l := by
  induction l with
  | nil => rfl
  | cons z zs ih =>
    rw [List.sorted_cons] at h
    obtain ⟨hz, hzs⟩ := h
    simp only [sortAddrs, List.foldr_cons] at ih ⊢
    rw [ih hzs]
    exact insertSorted_of_le fun y hy => le_of_lt (hz y hy)

/-- Keys present after a `std::map` insert-or-overwrite. -/
theorem map_fst_mapInsert (k v a : Nat) (l : List (Nat × Nat)) :
    a ∈ (mapInsert k v l).map Prod.fst ↔ a = k ∨ a ∈ l.map Prod.fst := by
  induction l with
  | nil => simp [mapInsert]
  | cons p rest ih =>
    obtain ⟨q, w⟩ := p
    simp only [mapInsert]
    by_cases hkk : k = q
    · rw [if_pos hkk]
      subst hkk
      simp only [List.map_cons, List.mem_cons]
      tauto
    · rw [if_neg hkk]
      simp only [List.map_cons, List.mem_cons, ih]
      tauto

/-- Insert-or-overwrite keeps at most one entry per key. -/
theorem mapInsert_fst_nodup {k v : Nat} {l : List (Nat × Nat)}
    (h : (l.map Prod.fst).Nodup) :
    ((mapInsert k v l).map Prod.fst).Nodup := by
  induction l with
  | nil => simp [mapInsert]
  | cons p rest ih =>
    obtain ⟨q, w⟩ := p
    simp only [List.map_cons, List.nodup_cons] at h
    obtain ⟨hq, hrest⟩ := h
    simp only [mapInsert]
    by_cases hkk : k = q
    · rw [if_pos hkk]
      subst hkk
      simp only [List.map_cons, List.nodup_cons]
      exact ⟨hq, hrest⟩
    · rw [if_neg hkk]
      simp only [List.map_cons, List.nodup_cons]
      refine ⟨?_, ih hrest⟩
      intro hmem
      rcases (map_fst_mapInsert k v q rest).mp hmem with h1 | h1
      · exact hkk h1.symm
      · exact hq h1

/-- An entry after insert-or-overwrite is the new pair or an old one. -/
theorem mem_mapInsert {p : Nat × Nat} {k v : Nat} {l : List (Nat × Nat)}
    (h : p ∈ mapInsert k v l) : p = (k, v) ∨ p ∈ l := by
  induction l with
  | nil => simpa [mapInsert] using h
  | cons q rest ih =>
    obtain ⟨q1, q2⟩ := q
    simp only [mapInsert] at h
    by_cases hkk : k = q1
    · rw [if_pos hkk] at h
      rcases List.mem_cons.mp h with h1 | h1
      · exact Or.inl h1
      · exact Or.inr (List.mem_cons_of_mem _ h1)
    · rw [if_neg hkk] at h
      rcases List.mem_cons.mp h with h1 | h1
      · exact Or.inr (h1 ▸ List.mem_cons_self _ _)
      · rcases ih h1 with h2 | h2
        · exact Or.inl h2
        · exact Or.inr (List.mem_cons_of_mem _ h2)

/-- Positional vector insertion is a permutation of consing. -/
theorem listInsertAt_perm (l : List ComputeStep) (i : Nat)
    (x : ComputeStep) : List.Perm (listInsertAt l i x) (x :: l) := by
  have h1 : List.Perm (l.take i ++ x :: l.drop i)
      (x :: (l.take i ++ l.drop i)) := List.perm_middle
  rw [List.take_append_drop] at h1
  exact h1

/-- Replay does not move steps: the PC column of a ledger is unchanged
by the per-step input/output overwrites of `recomputeSteps`. -/
theorem recomputeSteps_map_pc (l : List ComputeStep) :
    ∀ v, ((recomputeSteps v l).2).map ComputeStep.pc
      = l.map ComputeStep.pc := by
  induction l with
  | nil => intro v; rfl
  | cons st rest ih =>
    intro v
    simp only [recomputeSteps, List.map_cons, ih]

/-! ### Replay-engine lemmas -/

/-- The accumulated left-shift amount of a ledger: the sum of the
`slli` steps' operands. -/
def shiftSum : List ComputeStep → Nat
  | [] => 0
  | st :: rest => (if st.operation = "slli" then st.operand2 else 0) + shiftSum rest

/-- A replay step only reads a step's operation and operand. -/
theorem recomputeStep_congr (v : Nat) {st st' : ComputeStep}
    (hop : st'.operation = st.operation)
    (ho2 : st'.operand2 = st.operand2) :
    recomputeStep v st' = recomputeStep v st := by
  simp only [recomputeStep, hop, ho2]

/-- Replay leaves every step's operation and operand untouched. -/
theorem recomputeSteps_map_op (l : List ComputeStep) :
    ∀ v, ((recomputeSteps v l).2).map (fun st => (st.operation, st.operand2))
      = l.map (fun st => (st.operation, st.operand2)) := by
  induction l with
  | nil => intro v; rfl
  | cons st rest ih =>
    intro v
    simp only [recomputeSteps, List.map_cons, ih]

/-- The replayed value only depends on the operation/operand columns of
the ledger, which replay preserves: replaying a mutated ledger from the
same seed gives the same value. -/
theorem recomputeSteps_fst_of_map_op (l l' : List ComputeStep)
    (h : l'.map (fun st => (st.operation, st.operand2))
      = l.map (fun st => (st.operation, st.operand2))) :
    ∀ v, (recomputeSteps v l').1 = (recomputeSteps v l).1 := by
  induction l generalizing l' with
  | nil =>
    intro v
    rcases List.map_eq_nil_iff.mp (h.trans (List.map_nil)) with rfl
    rfl
  | cons st rest ih =>
    intro v
    cases l' with
    | nil => simp at h
    | cons st' rest' =>
      simp only [List.map_cons, List.cons.injEq, Prod.mk.injEq] at h
      obtain ⟨⟨hop, ho2⟩, hrest⟩ := h
      simp only [recomputeSteps]
      rw [recomputeStep_congr v hop ho2]
      exact ih rest' hrest _

/-- Linearity of replay in 64-bit wraparound arithmetic: one step
multiplies the difference of two runs by the step's shift factor. -/
theorem recomputeStep_sub (st : ComputeStep) (v1 v2 : Nat) :
    ((recomputeStep v1 st : ZMod (2 ^ 64)) - (recomputeStep v2 st : ZMod (2 ^ 64)))
      = ((v1 : ZMod (2 ^ 64)) - (v2 : ZMod (2 ^ 64)))
          * 2 ^ (if st.operation = "slli" then st.operand2 else 0) := by
  unfold recomputeStep
  by_cases h1 : st.operation = "slli"
  · rw [if_pos h1, if_pos h1, if_pos h1]
    rw [Nat.shiftLeft_eq, Nat.shiftLeft_eq]
    rw [ZMod.natCast_mod, ZMod.natCast_mod]
    push_cast
    ring
  · rw [if_neg h1, if_neg h1, if_neg h1, pow_zero, mul_one]
    by_cases h2 : st.operation = "add"
    · rw [if_pos h2, if_pos h2]
      rw [ZMod.natCast_mod, ZMod.natCast_mod]
      push_cast
      ring
    · rw [if_neg h2, if_neg h2]
      by_cases h3 : st.operation = "lw"
      · rw [if_pos h3, if_pos h3]
        rw [ZMod.natCast_mod, ZMod.natCast_mod]
        push_cast
        ring
      · rw [if_neg h3, if_neg h3]

/-- Linearity of replay over a whole ledger: two replays from seeds
`v1`, `v2` differ exactly by `(v1 - v2) * 2 ^ shiftSum` in 64-bit
wraparound arithmetic. -/
theorem recomputeSteps_sub (l : List ComputeStep) :
    ∀ v1 v2 : Nat,
      ((recomputeSteps v1 l).1 : ZMod (2 ^ 64))
          - ((recomputeSteps v2 l).1 : ZMod (2 ^ 64))
        = ((v1 : ZMod (2 ^ 64)) - (v2 : ZMod (2 ^ 64))) * 2 ^ shiftSum l := by
  induction l with
  | nil =>
    intro v1 v2
    simp [recomputeSteps, shiftSum]
  | cons st rest ih =>
    intro v1 v2
    simp only [recomputeSteps, shiftSum]
    rw [ih]
    rw [recomputeStep_sub]
    rw [pow_add]
    ring

/-! ### Inductive invariant of reachable scoreboard states -/

/-- State invariant maintained by every engine operation: completed
chains are registered in the completed set, have pairwise distinct base
PCs and strictly ascending PC lists; the session set iterates in
strictly ascending order; every final ledger holds at most one step per
instruction address; the shadow-value map holds at most one entry per
register, all within table bounds. -/
structure Inv (s : TaintScoreboard) : Prop where
  chains_completed : ∀ c ∈ s.dependencyChains, c.basePC ∈ s.completedStridePCs
  chains_nodup : (s.dependencyChains.map DependencyChain.basePC).Nodup
  chains_sorted : ∀ c ∈ s.dependencyChains, List.Sorted (· < ·) c.chainPCs
  session_sorted : List.Sorted (· < ·) s.activeSession.dependencyChain
  ledger_nodup : ∀ pc, ((s.computeStepsByPC pc).map ComputeStep.pc).Nodup
  values_nodup : (s.taintedValues.map Prod.fst).Nodup
  values_bounded : ∀ p ∈ s.taintedValues, p.1 < s.taintedRegs.length

/-- A freshly constructed scoreboard satisfies the invariant. -/
theorem inv_initState (h : Host) (n : Nat) : Inv (initState h n) := by
  constructor
  · intro c hc
    exact absurd hc (List.not_mem_nil c)
  · exact List.nodup_nil
  · intro c hc
    exact absurd hc (List.not_mem_nil c)
  · exact List.sorted_nil
  · intro pc
    exact List.nodup_nil
  · exact List.nodup_nil
  · intro p hp
    exact absurd hp (List.not_mem_nil p)

/-- Seeding taint preserves the invariant. -/
theorem inv_taintReg {s : TaintScoreboard} (h : Inv s) (d : Option Nat)
    (pc : Addr) : Inv (taintReg s d pc) := by
  cases d with
  | none => exact h
  | some idx =>
    simp only [taintReg]
    by_cases h1 : s.taintedRegs.length ≤ idx
    · rw [if_pos h1]
      exact h
    · rw [if_neg h1]
      cases hb : s.host.isStridePC pc with
      | false => exact h
      | true =>
        simp only [Bool.not_true, Bool.false_eq_true, if_false]
        refine ⟨h.chains_completed, h.chains_nodup, h.chains_sorted, ?_,
          h.ledger_nodup, ?_, ?_⟩
        · exact List.sorted_singleton pc
        · exact mapInsert_fst_nodup h.values_nodup
        · intro p hp
          rcases mem_mapInsert hp with rfl | hp'
          · simpa [List.length_set] using lt_of_not_le h1
          · simpa [List.length_set] using h.values_bounded p hp'

/-- Clearing all taints preserves the invariant. -/
theorem inv_clearAllTaints {s : TaintScoreboard} (h : Inv s) :
    Inv (clearAllTaints s) := by
  refine ⟨h.chains_completed, h.chains_nodup, h.chains_sorted,
    h.session_sorted, h.ledger_nodup, h.values_nodup, ?_⟩
  intro p hp
  simpa [clearAllTaints, List.length_replicate] using h.values_bounded p hp

/-- The session-chain update preserves the invariant. -/
theorem inv_propSession {s : TaintScoreboard} (h : Inv s) (pc : Addr)
    (hts : Bool) : Inv (propSession s pc hts) := by
  unfold propSession
  split
  · exact ⟨h.chains_completed, h.chains_nodup, h.chains_sorted,
      setInsert_sorted h.session_sorted, h.ledger_nodup, h.values_nodup,
      h.values_bounded⟩
  · exact h

/-- The session-chain update does not move the session's base PC. -/
theorem propSession_stridePC (s : TaintScoreboard) (pc : Addr)
    (hts : Bool) :
    (propSession s pc hts).activeSession.stridePC
      = s.activeSession.stridePC := by
  unfold propSession
  split <;> rfl

/-- The session-chain update does not touch the completed set. -/
theorem propSession_completed (s : TaintScoreboard) (pc : Addr)
    (hts : Bool) :
    (propSession s pc hts).completedStridePCs = s.completedStridePCs := by
  unfold propSession
  split <;> rfl

/-- The taint-transfer rule preserves the invariant. -/
theorem inv_propTransfer {s : TaintScoreboard} (h : Inv s) (hts : Bool)
    (destRegs : List (Option Nat)) : Inv (propTransfer s hts destRegs) := by
  unfold propTransfer
  split
  · split
    · split
      · refine ⟨h.chains_completed, h.chains_nodup, h.chains_sorted,
          h.session_sorted, h.ledger_nodup, h.values_nodup, ?_⟩
        intro p hp
        simpa [List.length_set] using h.values_bounded p hp
      · exact h
    · split
      · refine ⟨h.chains_completed, h.chains_nodup, h.chains_sorted,
          h.session_sorted, h.ledger_nodup, h.values_nodup, ?_⟩
        intro p hp
        simpa [List.length_set] using h.values_bounded p hp
      · exact h
  · exact h

/-- The taint-transfer rule does not touch the session. -/
theorem propTransfer_session (s : TaintScoreboard) (hts : Bool)
    (destRegs : List (Option Nat)) :
    (propTransfer s hts destRegs).activeSession = s.activeSession := by
  unfold propTransfer
  split
  · split
    · split <;> rfl
    · split <;> rfl
  · rfl

/-- The taint-transfer rule does not touch the completed set. -/
theorem propTransfer_completed (s : TaintScoreboard) (hts : Bool)
    (destRegs : List (Option Nat)) :
    (propTransfer s hts destRegs).completedStridePCs
      = s.completedStridePCs := by
  unfold propTransfer
  split
  · split
    · split <;> rfl
    · split <;> rfl
  · rfl

/-- The chain-closing rule preserves the invariant, provided the
session's base PC is not yet completed. -/
theorem inv_propClose {s : TaintScoreboard} (h : Inv s)
    (hnc : s.activeSession.stridePC ∉ s.completedStridePCs)
    (currentPC : Addr) (hts il : Bool) :
    Inv (propClose s currentPC hts il) := by
  unfold propClose
  by_cases hc : (il && hts) = true
  · rw [if_pos hc]
    dsimp only [clearAllTaints]
    refine ⟨?_, ?_, ?_, h.session_sorted, h.ledger_nodup, h.values_nodup, ?_⟩
    · intro c hcmem
      rcases List.mem_append.mp hcmem with h1 | h1
      · exact List.mem_cons_of_mem _ (h.chains_completed c h1)
      · have hc1 : c = ⟨s.activeSession.stridePC, currentPC,
            s.activeSession.dependencyChain⟩ := List.mem_singleton.mp h1
        subst hc1
        exact List.mem_cons_self _ _
    · rw [List.map_append, List.nodup_append]
      refine ⟨h.chains_nodup, List.nodup_singleton _, ?_⟩
      intro a ha hb
      simp only [List.map_cons, List.map_nil, List.mem_singleton] at hb
      subst hb
      rcases List.mem_map.mp ha with ⟨c, hcmem, hcbase⟩
      exact hnc (hcbase ▸ h.chains_completed c hcmem)
    · intro c hcmem
      rcases List.mem_append.mp hcmem with h1 | h1
      · exact h.chains_sorted c h1
      · have hc1 : c = ⟨s.activeSession.stridePC, currentPC,
            s.activeSession.dependencyChain⟩ := List.mem_singleton.mp h1
        subst hc1
        exact h.session_sorted
    · intro p hp
      simpa [List.length_replicate] using h.values_bounded p hp
  · rw [if_neg hc]
    exact h

/-- Taint propagation preserves the invariant. -/
theorem inv_propagateTaint {s : TaintScoreboard} (h : Inv s)
    (inst : Inst) : Inv (propagateTaint s inst) := by
  unfold propagateTaint
  split
  · exact h
  · split
    · exact ⟨h.chains_completed, h.chains_nodup, h.chains_sorted,
        h.session_sorted, h.ledger_nodup, h.values_nodup, h.values_bounded⟩
    · rename_i hact hnc
      apply inv_propClose
        (inv_propTransfer (inv_propSession h inst.pc _) _ inst.destRegs)
      rw [propTransfer_session, propTransfer_completed,
        propSession_stridePC, propSession_completed]
      intro hm
      exact hnc (List.elem_iff.mpr hm)

/-- Positional step recording preserves the invariant: the
already-recorded check keeps the final ledger free of duplicate PCs. -/
theorem inv_recordStep {s : TaintScoreboard} (h : Inv s) (stridePC : Addr)
    (chainOrder : List Addr) (pc : Addr) (operation : String)
    (operand2 : Nat) (description : String) :
    Inv (recordStep s stridePC chainOrder pc operation operand2
      description) := by
  unfold recordStep
  split
  · split
    · refine ⟨h.chains_completed, h.chains_nodup, h.chains_sorted,
        h.session_sorted, ?_, h.values_nodup, h.values_bounded⟩
      intro pc'
      simp only [updMap]
      by_cases hpc : pc' = stridePC
      · rw [if_pos hpc]
        by_cases hex :
            (s.computeStepsByPC stridePC).any (fun e => e.pc == pc) = true
        · rw [if_pos hex]
          exact h.ledger_nodup stridePC
        · rw [if_neg hex]
          have hperm := (listInsertAt_perm (s.computeStepsByPC stridePC)
            (findInsertPos chainOrder pc (s.computeStepsByPC stridePC))
            (ComputeStep.mk pc operation 0 operand2 0 description)).map
            ComputeStep.pc
          rw [List.Perm.nodup_iff hperm]
          simp only [List.map_cons]
          rw [List.nodup_cons]
          refine ⟨?_, h.ledger_nodup stridePC⟩
          intro hmem
          rcases List.mem_map.mp hmem with ⟨e, hemem, hep⟩
          apply hex
          rw [List.any_eq_true]
          exact ⟨e, hemem, by simp [hep]⟩
      · rw [if_neg hpc]
        exact h.ledger_nodup pc'
    · exact h
  · exact h

/-- Writeback-time decoding preserves the invariant. -/
theorem inv_decode {s : TaintScoreboard} (h : Inv s) (pc : Addr)
    (inst : Inst) : Inv (decodeChainInstructionOperands s pc inst) := by
  unfold decodeChainInstructionOperands
  split
  · dsimp only
    split
    · exact h
    · split
      · exact h
      · exact inv_recordStep h _ _ _ _ _ _
  · dsimp only
    split
    · exact h
    · split
      · exact h
      · split
        · exact h
        · exact inv_recordStep h _ _ _ _ _ _

/-- Replay preserves the invariant: only the input/output columns of
one ledger are overwritten. -/
theorem inv_recompute {s : TaintScoreboard} (h : Inv s) (pc : Addr)
    (v : Nat) : Inv (recomputeStepsForPC s pc v).2 := by
  refine ⟨h.chains_completed, h.chains_nodup, h.chains_sorted,
    h.session_sorted, ?_, h.values_nodup, h.values_bounded⟩
  intro pc'
  simp only [recomputeStepsForPC, updMap]
  by_cases hpc : pc' = pc
  · rw [if_pos hpc]
    rw [recomputeSteps_map_pc]
    exact h.ledger_nodup pc
  · rw [if_neg hpc]
    exact h.ledger_nodup pc'

/-- Every engine operation preserves the invariant. -/
theorem inv_stepOp {s : TaintScoreboard} (h : Inv s) (op : Op) :
    Inv (stepOp s op) := by
  cases op with
  | seed d pc => exact inv_taintReg h d pc
  | prop inst => exact inv_propagateTaint h inst
  | clearTaints => exact inv_clearAllTaints h
  | decode pc inst => exact inv_decode h pc inst
  | recompute pc v => exact inv_recompute h pc v

/-- The invariant is preserved along any call sequence. -/
theorem inv_run {s : TaintScoreboard} (h : Inv s) (ops : List Op) :
    Inv (run s ops) := by
  induction ops generalizing s with
  | nil => exact h
  | cons op rest ih => exact ih (inv_stepOp h op)

/-- Every state reachable from a fresh scoreboard satisfies the
invariant. -/
theorem inv_reachable (h : Host) (n : Nat) (ops : List Op) :
    Inv (run (initState h n) ops) :=
  inv_run (inv_initState h n) ops

/-! ### Small characterization lemmas for the propagate stages -/

/-- The session-chain update does not touch the taint table. -/
theorem propSession_taintedRegs (s : TaintScoreboard) (pc : Addr)
    (hts : Bool) : (propSession s pc hts).taintedRegs = s.taintedRegs := by
  unfold propSession
  split <;> rfl

/-- Without a tainted source the chain-closing rule does nothing. -/
theorem propClose_hts_false (s : TaintScoreboard) (pc : Addr) (il : Bool) :
    propClose s pc false il = s := by
  unfold propClose
  simp

/-- Reading back an updated taint bit. -/
theorem getD_set_self {l : List Bool} {d : Nat} (h : d < l.length)
    (b : Bool) : (l.set d b).getD d false = b := by
  rw [List.getD_eq_getElem?_getD, List.getElem?_set_self h]
  rfl

/-- Reading a cleared taint table. -/
theorem getD_replicate_false (n i : Nat) :
    (List.replicate n false).getD i false = false := by
  induction n generalizing i with
  | zero => simp
  | succ m ih =>
    cases i with
    | zero => rfl
    | succ j =>
      rw [List.replicate_succ]
      exact ih j

/-- A state whose taint table reads all-false taints nothing. -/
theorem isRegTainted_eq_false_of_getD (s : TaintScoreboard)
    (h : ∀ i, s.taintedRegs.getD i false = false) (r : Option Nat) :
    isRegTainted s r = false := by
  cases r with
  | some i =>
    simp only [isRegTainted]
    split
    · exact h i
    · rfl
  | none => rfl

/-- With a tainted source and a valid destination, the transfer rule
taints the destination. -/
theorem propTransfer_true_taint (s : TaintScoreboard) (d : Nat)
    (tl : List (Option Nat)) (hd : d < s.taintedRegs.length) :
    isRegTainted (propTransfer s true (some d :: tl)) (some d) = true := by
  simp only [propTransfer]
  rw [if_pos hd]
  simp only [isRegTainted]
  rw [if_pos (by simpa [List.length_set] using hd)]
  exact getD_set_self hd true

/-- Without a tainted source, a valid destination ends up untainted
(cleared if it was tainted, unchanged otherwise). -/
theorem propTransfer_false_kill (s : TaintScoreboard) (d : Nat)
    (tl : List (Option Nat)) (hd : d < s.taintedRegs.length) :
    isRegTainted (propTransfer s false (some d :: tl)) (some d) = false := by
  simp only [propTransfer]
  split
  · rename_i hfalse
    exact absurd hfalse (by simp)
  · by_cases hcond : (decide (d < s.taintedRegs.length)
        && s.taintedRegs.getD d false) = true
    · rw [if_pos hcond]
      simp only [isRegTainted]
      rw [if_pos (by simpa [List.length_set] using hd)]
      exact getD_set_self hd false
    · rw [if_neg hcond]
      simp only [isRegTainted]
      rw [if_pos hd]
      cases hgd : s.taintedRegs.getD d false with
      | false => rfl
      | true => exact absurd (by rw [hgd]; simp [hd]) hcond

/-! ### Concrete example scenario (host, instructions, runs) -/

/-- Example host: PC `0x1000` qualifies as a stride access and the
latest vectorized load value is 16. -/
def exHost : Host := ⟨fun pc => pc == 0x1000, [16]⟩

/-- Shift instruction of the scenario: at `0x1004`, a constant left
shift by 2 of tainted source R5 into R6 (opcode `0x0a`). -/
def shiftInst : Inst := ⟨0x1004, [some 5], [some 6], false, 0x0000000a, 0⟩

/-- Load instruction of the scenario: at `0x1008`, a load through R6
with immediate offset 8 (opcode `0x03`, immediate bits `8`). -/
def loadInst : Inst := ⟨0x1008, [some 6], [some 7], true, 0x00800003, 0⟩

/-- The example call sequence: seed R5 at `0x1000`, propagate the shift
and the chain-closing load, then record both compute steps at
writeback. -/
def scenarioOps : List Op :=
  [.seed (some 5) 0x1000, .prop shiftInst, .prop loadInst,
   .decode 0x1004 shiftInst, .decode 0x1008 loadInst]

/-- The state after the example scenario. -/
def scenarioState : TaintScoreboard := run (initState exHost 32) scenarioOps

/-- The scenario state re-seeded at the already-completed base PC. -/
def reseedState : TaintScoreboard :=
  run (initState exHost 32) (scenarioOps ++ [.seed (some 5) 0x1000])

/-! ### Claim theorems -/

/-- C1: in the scenario seeding R5 at base PC `0x1000` with value 16,
with a constant shift-by-2 at `0x1004` into R6 and a load through R6
with offset 8 at `0x1008`, the engine persists exactly the chain
`{base 0x1000, indirect 0x1008, chainPCs [0x1000, 0x1004, 0x1008]}`,
and after the compute steps are recorded, `recompute(0x1000, 100)`
returns `100 * 4 + 8 = 408`. -/
theorem scenario_chain_and_recompute :
    scenarioState.dependencyChains
        = [⟨0x1000, 0x1008, [0x1000, 0x1004, 0x1008]⟩]
    ∧ (recomputeStepsForPC scenarioState 0x1000 100).1 = 408 := by
  constructor
  · decide
  · decide

/-- C2: in every reachable state the completed-chains sequence holds at
most one entry per base PC, and when the session's base PC is already
completed a propagate call (the only chain-closing event) records no
new entry. -/
theorem at_most_one_chain_per_base :
    (∀ (h : Host) (n : Nat) (ops : List Op) (pc : Addr),
      ((run (initState h n) ops).dependencyChains.countP
        (fun c => c.basePC == pc)) ≤ 1)
    ∧ (∀ (s : TaintScoreboard) (inst : Inst),
        s.completedStridePCs.contains s.activeSession.stridePC = true →
        (propagateTaint s inst).dependencyChains = s.dependencyChains) := by
  constructor
  · intro h n ops pc
    have h1 := List.nodup_iff_count_le_one.mp
      (inv_reachable h n ops).chains_nodup pc
    rw [List.count_eq_countP, List.countP_map] at h1
    exact h1
  · intro s inst hc
    unfold propagateTaint
    by_cases ha : (!s.hasActiveSession) = true
    · rw [if_pos ha]
    · rw [if_neg ha, if_pos hc]

/-- C2 witness: the scenario run has one chain for base `0x1000`, and
after re-seeding the completed base PC a further chain-closing load
leaves the chain store unchanged. -/
theorem at_most_one_chain_per_base_witness :
    ((run (initState exHost 32) scenarioOps).dependencyChains.countP
        (fun c => c.basePC == 0x1000)) ≤ 1
    ∧ (propagateTaint reseedState loadInst).dependencyChains
        = reseedState.dependencyChains :=
  ⟨at_most_one_chain_per_base.1 exHost 32 scenarioOps 0x1000,
   at_most_one_chain_per_base.2 reseedState loadInst (by decide)⟩

/-- C3: seeding taint never persists anything (completed chains and the
completed-base-PC set are unchanged), and a successful seed replaces
whatever session was open with the fresh one `{pc, {pc}}`; at most one
session exists by construction (a single session field). -/
theorem seedTaint_replaces_session (s : TaintScoreboard) (d : Option Nat)
    (pc : Addr) :
    (taintReg s d pc).dependencyChains = s.dependencyChains
    ∧ (taintReg s d pc).completedStridePCs = s.completedStridePCs
    ∧ (∀ i, d = some i → i < s.taintedRegs.length →
        s.host.isStridePC pc = true →
        (taintReg s d pc).hasActiveSession = true
        ∧ (taintReg s d pc).activeSession = ⟨pc, [pc]⟩) := by
  refine ⟨?_, ?_, ?_⟩
  · cases d with
    | none => rfl
    | some i =>
      simp only [taintReg]
      by_cases h1 : s.taintedRegs.length ≤ i
      · rw [if_pos h1]
      · rw [if_neg h1]
        cases hb : s.host.isStridePC pc <;> simp
  · cases d with
    | none => rfl
    | some i =>
      simp only [taintReg]
      by_cases h1 : s.taintedRegs.length ≤ i
      · rw [if_pos h1]
      · rw [if_neg h1]
        cases hb : s.host.isStridePC pc <;> simp
  · intro i hi hlen hstride
    subst hi
    simp only [taintReg]
    rw [if_neg (not_le.mpr hlen), hstride]
    exact ⟨rfl, rfl⟩

/-- C3 witness: seeding R5 at `0x1000` on a state with an open session
(the re-seeded scenario state) keeps the chain store and the completed
set unchanged and installs the fresh session. -/
theorem seedTaint_replaces_session_witness :
    (taintReg reseedState (some 5) 0x1000).dependencyChains
        = reseedState.dependencyChains
    ∧ (taintReg reseedState (some 5) 0x1000).completedStridePCs
        = reseedState.completedStridePCs
    ∧ (taintReg reseedState (some 5) 0x1000).hasActiveSession = true
    ∧ (taintReg reseedState (some 5) 0x1000).activeSession
        = ⟨0x1000, [0x1000]⟩ := by
  refine ⟨(seedTaint_replaces_session reseedState (some 5) 0x1000).1,
    (seedTaint_replaces_session reseedState (some 5) 0x1000).2.1, ?_, ?_⟩
  · exact ((seedTaint_replaces_session reseedState (some 5) 0x1000).2.2
      5 rfl (by decide) (by decide)).1
  · exact ((seedTaint_replaces_session reseedState (some 5) 0x1000).2.2
      5 rfl (by decide) (by decide)).2

/-- C7: seeding from an absent or out-of-bounds destination register,
or from a PC the host does not recognize as a stride access, is
rejected with no state change at all. -/
theorem seedTaint_rejected_no_state_change (s : TaintScoreboard)
    (d : Option Nat) (pc : Addr)
    (h : d = none ∨ (∃ i, d = some i ∧ s.taintedRegs.length ≤ i)
      ∨ s.host.isStridePC pc = false) :
    taintReg s d pc = s := by
  cases d with
  | none => rfl
  | some i =>
    simp only [taintReg]
    rcases h with h | ⟨j, hj, hlen⟩ | h
    · exact Option.noConfusion h
    · injection hj with hj1
      subst hj1
      rw [if_pos hlen]
    · by_cases hlen : s.taintedRegs.length ≤ i
      · rw [if_pos hlen]
      · rw [if_neg hlen, h]
        rfl

/-- C7 witness: seeding register 99 (out of bounds for an 8-register
table) and seeding from the non-stride PC `0x2000` are both exact
no-ops on a fresh scoreboard. -/
theorem seedTaint_rejected_witness :
    taintReg (initState exHost 8) (some 99) 0x1000 = initState exHost 8
    ∧ taintReg (initState exHost 8) (some 5) 0x2000 = initState exHost 8 :=
  ⟨seedTaint_rejected_no_state_change (initState exHost 8) (some 99) 0x1000
      (Or.inr (Or.inl ⟨99, rfl, by decide⟩)),
   seedTaint_rejected_no_state_change (initState exHost 8) (some 5) 0x2000
      (Or.inr (Or.inr (by decide)))⟩

/-- State with an open session and register 1 tainted, used to exhibit
the chain-closing exception of the taint-transfer rule. -/
def preC4 : TaintScoreboard := run (initState exHost 8) [.seed (some 1) 0x1000]

/-- Load instruction with tainted source R1 and destination R2. -/
def loadInstC4 : Inst := ⟨0x1004, [some 1], [some 2], true, 0, 0⟩

/-- C4 (counterexample): as stated the claim fails for a chain-closing
load: with an active session, a tainted source and a valid destination,
the destination is first tainted but the load closes the chain and
clears all taint state, so after the call the destination is NOT
tainted. -/
theorem taint_transfer_counterexample :
    preC4.hasActiveSession = true
    ∧ (findTaintedSrc preC4 loadInstC4.srcRegs).isSome = true
    ∧ loadInstC4.destRegs = [some 2]
    ∧ (2 : Nat) < preC4.taintedRegs.length
    ∧ loadInstC4.isLoad = true
    ∧ isRegTainted (propagateTaint preC4 loadInstC4) (some 2) = false := by
  refine ⟨by decide, by decide, by decide, by decide, by decide, by decide⟩

/-- C4 (amended): for an instruction processed by propagate with an
active, not-yet-completed session and a present in-bounds destination:
without a tainted source the destination ends up untainted (taint
kill); with a tainted source the destination becomes tainted regardless
of its prior state unless the instruction is a load, in which case the
chain closes and every register (the destination included) ends up
untainted. -/
theorem taint_transfer_amended (s : TaintScoreboard) (inst : Inst)
    (d : Nat) (hact : s.hasActiveSession = true)
    (hnc : s.completedStridePCs.contains s.activeSession.stridePC = false)
    (hdest : inst.destRegs.head? = some (some d))
    (hd : d < s.taintedRegs.length) :
    (findTaintedSrc s inst.srcRegs = none →
      isRegTainted (propagateTaint s inst) (some d) = false)
    ∧ (findTaintedSrc s inst.srcRegs ≠ none → inst.isLoad = false →
      isRegTainted (propagateTaint s inst) (some d) = true)
    ∧ (findTaintedSrc s inst.srcRegs ≠ none → inst.isLoad = true →
      ∀ r, isRegTainted (propagateTaint s inst) r = false) := by
  obtain ⟨tl, hdl⟩ : ∃ tl, inst.destRegs = some d :: tl := by
    cases hdl : inst.destRegs with
    | nil => rw [hdl] at hdest; exact absurd hdest (by simp)
    | cons a tl =>
      rw [hdl] at hdest
      simp only [List.head?_cons, Option.some.injEq] at hdest
      exact ⟨tl, by rw [hdest]⟩
  have heq : propagateTaint s inst
      = propClose (propTransfer (propSession s inst.pc
          (findTaintedSrc s inst.srcRegs).isSome)
          (findTaintedSrc s inst.srcRegs).isSome inst.destRegs)
        inst.pc (findTaintedSrc s inst.srcRegs).isSome inst.isLoad := by
    unfold propagateTaint
    rw [hact, hnc]
    simp
  refine ⟨?_, ?_, ?_⟩
  · intro hnone
    rw [heq, hnone]
    simp only [Option.isSome_none]
    rw [propClose_hts_false, hdl]
    exact propTransfer_false_kill s d tl hd
  · intro hsome hload
    have hts : (findTaintedSrc s inst.srcRegs).isSome = true :=
      Option.ne_none_iff_isSome.mp hsome
    rw [heq, hts, hload, hdl]
    show isRegTainted
      (propTransfer (propSession s inst.pc true) true (some d :: tl))
      (some d) = true
    exact propTransfer_true_taint (propSession s inst.pc true) d tl
      (by rw [propSession_taintedRegs]; exact hd)
  · intro hsome hload
    have hts : (findTaintedSrc s inst.srcRegs).isSome = true :=
      Option.ne_none_iff_isSome.mp hsome
    rw [heq, hts, hload]
    intro r
    apply isRegTainted_eq_false_of_getD
    intro i
    show (List.replicate _ false).getD i false = false
    exact getD_replicate_false _ i

/-- C4 (amended) witness: on the seeded state, a non-load instruction
with tainted source R1 taints destination R2, and an untainted-source
instruction leaves its destination untainted. -/
theorem taint_transfer_amended_witness :
    isRegTainted
      (propagateTaint preC4 ⟨0x1004, [some 1], [some 2], false, 0, 0⟩)
      (some 2) = true
    ∧ isRegTainted
      (propagateTaint preC4 ⟨0x1004, [some 3], [some 1], false, 0, 0⟩)
      (some 1) = false :=
  ⟨(taint_transfer_amended preC4 ⟨0x1004, [some 1], [some 2], false, 0, 0⟩ 2
      (by decide) (by decide) (by decide) (by decide)).2.1
      (by decide) (by decide),
   (taint_transfer_amended preC4 ⟨0x1004, [some 3], [some 1], false, 0, 0⟩ 1
      (by decide) (by decide) (by decide) (by decide)).1 (by decide)⟩

/-- C5: with a fixed recorded ledger, replay is a pure function of the
seed — replaying again (even after the first replay overwrote the
per-step input/output columns) gives the same value — and the results
for two seeds differ exactly by `(s1 - s2) * 2 ^ (sum of recorded
shift amounts)` in 64-bit wraparound arithmetic. -/
theorem recompute_deterministic_linear (s : TaintScoreboard) (pc : Addr)
    (v s1 s2 : Nat) :
    (recomputeStepsForPC (recomputeStepsForPC s pc v).2 pc v).1
        = (recomputeStepsForPC s pc v).1
    ∧ ((recomputeStepsForPC s pc s1).1 : ZMod (2 ^ 64))
          - ((recomputeStepsForPC s pc s2).1 : ZMod (2 ^ 64))
        = ((s1 : ZMod (2 ^ 64)) - (s2 : ZMod (2 ^ 64)))
            * 2 ^ shiftSum (s.computeStepsByPC pc) := by
  constructor
  · simp only [recomputeStepsForPC, updMap, if_true]
    exact recomputeSteps_fst_of_map_op _ _
      (recomputeSteps_map_op (s.computeStepsByPC pc) v) v
  · simp only [recomputeStepsForPC]
    exact recomputeSteps_sub (s.computeStepsByPC pc) s1 s2

/-- C6: in every reachable state, every per-base-PC final ledger holds
at most one compute step per instruction address, so recording the same
address twice does not duplicate its entry. -/
theorem positional_recording_idempotent (h : Host) (n : Nat)
    (ops : List Op) (pc : Addr) :
    (((run (initState h n) ops).computeStepsByPC pc).map
      ComputeStep.pc).Nodup :=
  (inv_reachable h n ops).ledger_nodup pc

/-- On inputs where the scan is defined (no absent source reference is
reached before the scan stops), the total scan used by `propagateTaint`
computes the same result as the checked scan. -/
theorem findTaintedSrc_eq_of_checked (s : TaintScoreboard) :
    ∀ (l : List (Option Nat)) (r : Option Nat),
      findTaintedSrcChecked s l = some r → findTaintedSrc s l = r := by
  intro l
  induction l with
  | nil =>
    intro r hr
    simp only [findTaintedSrcChecked, Option.some.injEq] at hr
    subst hr
    rfl
  | cons a rest ih =>
    intro r hr
    cases a with
    | none =>
      simp only [findTaintedSrcChecked] at hr
      exact Option.noConfusion hr
    | some i =>
      simp only [findTaintedSrcChecked] at hr
      simp only [findTaintedSrc]
      split at hr
      · rename_i hc
        rw [if_pos hc]
        exact Option.some.inj hr
      · rename_i hc
        rw [if_neg hc]
        exact ih r hr

/-- C8 (code bug): the failing path evaluated on the embedding.  With a
session active, out-of-bounds references behave exactly as the claim
says: the scan skips register 99 and still finds tainted register 1,
`isRegTainted` reads out-of-range as untainted, and seeding an absent
or out-of-bounds register changes nothing.  But an absent SOURCE
reference reached by propagate's scan is dereferenced by the
diagnostic print before the null check, so the checked scan returns
the undefined marker `none` instead of a defined no-op result — the
code raises undefined behavior where the claim (and the spec's failure
semantics, which the rest of the code implements) promises a tolerated
silent skip. -/
theorem absent_source_dereference :
    preC4.hasActiveSession = true
    ∧ findTaintedSrcChecked preC4
        ((⟨0x1004, [none], [some 2], false, 0, 0⟩ : Inst).srcRegs) = none
    ∧ findTaintedSrcChecked preC4 [some 99, some 1] = some (some 1)
    ∧ findTaintedSrc preC4 [some 99, some 1] = some 1
    ∧ isRegTainted preC4 none = false
    ∧ isRegTainted preC4 (some 99) = false
    ∧ taintReg preC4 none 0x1000 = preC4
    ∧ taintReg preC4 (some 99) 0x1000 = preC4 := by
  refine ⟨by decide, by decide, by decide, by decide, by decide,
    by decide, rfl, ?_⟩
  simp only [taintReg]
  rw [if_pos (by decide : preC4.taintedRegs.length ≤ 99)]

/-- State obtained by seeding register 1 and then clearing all taints:
the shadow-value entry survives the clear. -/
def staleState : TaintScoreboard :=
  run (initState exHost 8) [.seed (some 1) 0x1000, .clearTaints]

/-- C9 (counterexample): the claim fails — after `clearAllTaints` the
shadow-value map still holds the entry for register 1 while the taint
table marks it untainted; the map is never pruned. -/
theorem shadow_value_stale_counterexample :
    (staleState.taintedValues.map Prod.fst).contains 1 = true
    ∧ isRegTainted staleState (some 1) = false := by
  refine ⟨by decide, by decide⟩

/-- C9 (amended): shadow-value entries may outlive their register's
taint (clearing does not prune the map); what every reachable state
does guarantee is that the map holds at most one entry per register —
re-seeding overwrites rather than accumulates — and that every entry's
register index is within the taint table's bounds. -/
theorem shadow_value_amended (h : Host) (n : Nat) (ops : List Op) :
    ((run (initState h n) ops).taintedValues.map Prod.fst).Nodup
    ∧ (∀ p ∈ (run (initState h n) ops).taintedValues,
        p.1 < (run (initState h n) ops).taintedRegs.length) :=
  ⟨(inv_reachable h n ops).values_nodup,
   (inv_reachable h n ops).values_bounded⟩

/-- C9 (amended) witness: the surviving entry `(1, 16)` of the stale
state is within the 8-register table's bounds. -/
theorem shadow_value_amended_witness :
    ((1, 16) : Nat × Nat).1
      < (run (initState exHost 8) [Op.seed (some 1) 0x1000,
          Op.clearTaints]).taintedRegs.length :=
  (shadow_value_amended exHost 8 [Op.seed (some 1) 0x1000,
    Op.clearTaints]).2 (1, 16) (by decide)

/-- C10: every persisted chain's PC list is strictly ascending (hence
deduplicated) — the enumeration order of the session's address set —
and for an active session the sort performed by positional recording
returns exactly that same ascending order. -/
theorem chain_pcs_sorted_dedup (h : Host) (n : Nat) (ops : List Op) :
    (∀ c ∈ (run (initState h n) ops).dependencyChains,
      List.Sorted (· < ·) c.chainPCs ∧ c.chainPCs.Nodup)
    ∧ sortAddrs (run (initState h n) ops).activeSession.dependencyChain
        = (run (initState h n) ops).activeSession.dependencyChain := by
  have hinv := inv_reachable h n ops
  refine ⟨?_, sortAddrs_of_sorted hinv.session_sorted⟩
  intro c hc
  exact ⟨hinv.chains_sorted c hc, (hinv.chains_sorted c hc).nodup⟩

/-- C10 witness: the scenario's persisted chain is strictly ascending
and duplicate-free. -/
theorem chain_pcs_sorted_dedup_witness :
    List.Sorted (· < ·) (DependencyChain.mk 0x1000 0x1008
      [0x1000, 0x1004, 0x1008]).chainPCs
    ∧ (DependencyChain.mk 0x1000 0x1008
      [0x1000, 0x1004, 0x1008]).chainPCs.Nodup :=
  (chain_pcs_sorted_dedup exHost 32 scenarioOps).1
    ⟨0x1000, 0x1008, [0x1000, 0x1004, 0x1008]⟩ (by decide)

end DVR
